import Mathlib

/-!
Shallow embedding of the `mat` crate: statically sized, lazily evaluated
matrices. Matrix-like values (the `Matrix`/`LazyMatrix` trait family) become
records bundling the type-level extents (`NROWS`, `NCOLS`, here `Nat` fields)
with the `unsafe_get` accessor; combinator nodes (`Transpose`, `Product`,
`Sum`) become functions producing such records, transcribed from their
`impl Matrix` / `impl UnsafeGet` blocks in `src/lib.rs`; the storage types
(`Mat`, `MatGen`, `MatGenImm`) become a flat-buffer record, and the eager
`ops::Mul` / `ops::Add` impls on `&MatGenImm` become buffer-writing loops.
A panicking `get` is modelled as `Option`: `none` is the fatal assertion.
-/

namespace mat

/-- A matrix-like value: the capability contract of the `Matrix`/`LazyMatrix`
traits (`src/traits.rs`). The compile-time extents `NROWS`/`NCOLS` are `Nat`
fields and `unsafe_get` is the unchecked accessor of the `UnsafeGet` trait. -/
structure Matrix (α : Type) where
  nrows : Nat
  ncols : Nat
  unsafe_get : Nat → Nat → α

/-- `LazyMatrix::size` (`src/traits.rs`): `(NROWS::to_usize(), NCOLS::to_usize())`. -/
def Matrix.size (m : Matrix α) : Nat × Nat :=
  (m.nrows, m.ncols)

/-- `LazyMatrix::get` (`src/traits.rs` lines 37-41):
`assert!(r < self.nrows() && c < self.ncols()); unsafe { self.unsafe_get(r, c) }`.
The panic of a failed assertion is modelled as `none`. -/
def Matrix.get (m : Matrix α) (r c : Nat) : Option α :=
  if r < m.nrows ∧ c < m.ncols then some (m.unsafe_get r c) else none

/-- The value a (necessarily in-bounds) internal `self.get(i, j)` call yields;
out of bounds the source would panic, modelled by the junk value `default`. -/
def Matrix.getPanic [Inhabited α] (m : Matrix α) (r c : Nat) : α :=
  (m.get r c).getD default

/-- The `Transpose` combinator node together with its
`impl Matrix for Transpose` (reversed extents, `src/lib.rs` lines 504-511) and
`impl UnsafeGet for Transpose` (reversed indices, lines 513-523). The node
holds only its operand `m`; no element data. -/
def Transpose (m : Matrix α) : Matrix α :=
  { nrows := m.ncols
    ncols := m.nrows
    unsafe_get := fun r c => m.unsafe_get c r }

/-- The `Product` combinator node together with its `impl Matrix for Product`
(`NROWS = L::NROWS`, `NCOLS = R::NCOLS`, `src/lib.rs` lines 537-545) and
`impl UnsafeGet for Product` (lines 547-562): a running sum seeded with
`T::zero()`, folded over `i in 0..self.l.ncols()`. -/
def Product [Zero α] [Add α] [Mul α] (l r : Matrix α) : Matrix α :=
  { nrows := l.nrows
    ncols := r.ncols
    unsafe_get := fun i j =>
      (List.range l.ncols).foldl
        (fun sum k => sum + l.unsafe_get i k * r.unsafe_get k j) 0 }

/-- The `Sum` combinator node together with its `impl Matrix for Sum`
(`NROWS = L::NROWS`, `NCOLS = L::NCOLS`, `src/lib.rs` lines 577-585) and
`impl UnsafeGet for Sum` (lines 587-598): elementwise `+`. -/
def Sum [Add α] (l r : Matrix α) : Matrix α :=
  { nrows := l.nrows
    ncols := l.ncols
    unsafe_get := fun i j => l.unsafe_get i j + r.unsafe_get i j }

/-- Modelled from the spec: the `Difference` combinator node behind the `-`
operator is missing from the sources (`src/lib.rs` has no `ops::Sub` impl and
no `Difference` type; only the test `mat_sub` exercises `&a - &b`). Spec §4.5:
operands of identical shape, `unsafe_get(r, c)` =
`left.unsafe_get(r,c) - right.unsafe_get(r,c)`, result shape that of either
operand. -/
def Difference [Sub α] (l r : Matrix α) : Matrix α :=
  { nrows := l.nrows
    ncols := l.ncols
    unsafe_get := fun i j => l.unsafe_get i j - r.unsafe_get i j }

/-- Storage matrix: `MatGen<T, NROWS, NCOLS>` (`src/lib.rs` lines 106-117); the
`Mat` and `MatGenImm` flavors carry the same flat row-major buffer and
identical `UnsafeGet` impls, so one record embeds all three. -/
structure MatGen (α : Type) where
  nrows : Nat
  ncols : Nat
  data : List α

/-- The storage invariant: the backing buffer holds exactly
`NROWS * NCOLS` elements (`GenericArray<T, Prod<NROWS, NCOLS>>`). -/
def MatGen.wf (m : MatGen α) : Prop :=
  m.data.length = m.nrows * m.ncols

instance (m : MatGen α) : Decidable m.wf := by
  unfold MatGen.wf; infer_instance

/-- `impl UnsafeGet for &MatGen` (`src/lib.rs` lines 366-380, identically
351-364 for `&Mat` and 382-396 for `&MatGenImm`):
`*slice.get_unchecked(r * NCOLS::to_usize() + c)`. An out-of-bounds
`get_unchecked` is undefined behaviour, modelled by `default`. -/
def MatGen.view [Inhabited α] (m : MatGen α) : Matrix α :=
  { nrows := m.nrows
    ncols := m.ncols
    unsafe_get := fun r c => m.data.getD (r * m.ncols + c) default }

/-- `impl Default for MatGen` (`src/lib.rs` lines 185-198): the
`GenericArray` default fills all `NROWS * NCOLS` slots with
`Default::default()` of the element type. -/
def MatGen.mkDefault (α : Type) [Inhabited α] (nrows ncols : Nat) : MatGen α :=
  { nrows := nrows
    ncols := ncols
    data := List.replicate (nrows * ncols) default }

/-- The `mat!`/`mat_gen!` literal constructors (`macros/src/lib.rs`): a grid of
rows (all of the first row's length) is flattened row after row into the flat
buffer, `nrows` the number of rows and `ncols` the first row's length. -/
def MatGen.fromRows (rows : List (List α)) : MatGen α :=
  { nrows := rows.length
    ncols := (rows.headD []).length
    data := rows.flatten }

/-- The write skeleton shared by the eager `ops::Mul`/`ops::Add` impls on
`&MatGenImm` and by `eval`: `for i in 0..m { for j in 0..n {
slice[i * n + j] = g(i, j) } }` on a flat buffer. -/
def writeGrid (m n : Nat) (g : Nat → Nat → α) (buf : List α) : List α :=
  (List.range m).foldl
    (fun slice i =>
      (List.range n).foldl
        (fun slice j => slice.set (i * n + j) (g i j)) slice)
    buf

namespace MatGenImm

/-- `impl ops::Mul for &MatGenImm` (`src/lib.rs` lines 429-465): an eagerly
materialized product. A default-constructed `NROWS x R::NCOLS` store is filled
in place: `for i in 0..NROWS { for j in 0..R::NCOLS { sum = T::zero();
for k in 0..NCOLS { sum = sum + self.get(i, k) * rhs.get(k, j) };
slice[i * R::NCOLS + j] = sum } }` — via the safe `get` path. -/
def mul [Inhabited α] [Zero α] [Add α] [Mul α]
    (self : MatGen α) (rhs : Matrix α) : MatGen α :=
  { nrows := self.nrows
    ncols := rhs.ncols
    data :=
      writeGrid self.nrows rhs.ncols
        (fun i j =>
          (List.range self.ncols).foldl
            (fun sum k => sum + self.view.getPanic i k * rhs.getPanic k j) 0)
        (MatGen.mkDefault α self.nrows rhs.ncols).data }

/-- `impl ops::Add for &MatGenImm` (`src/lib.rs` lines 467-496): an eagerly
materialized sum. A default-constructed `NROWS x NCOLS` store is filled in
place: `slice[i * NCOLS + j] = self.get(i, j) + rhs.get(i, j)` over
`i in 0..NROWS`, `j in 0..NCOLS` — via the safe `get` path. -/
def add [Inhabited α] [Add α] (self : MatGen α) (rhs : Matrix α) : MatGen α :=
  { nrows := self.nrows
    ncols := self.ncols
    data :=
      writeGrid self.nrows self.ncols
        (fun i j => self.view.getPanic i j + rhs.getPanic i j)
        (MatGen.mkDefault α self.nrows self.ncols).data }

end MatGenImm

/-- Modelled from the spec: `LazyMatrix::eval` is only declared in
`src/traits.rs` (line 43, no body) and `UnsafePut` (lines 72-76) has no impl,
so the "evaluate into" operation is missing from the sources. Spec §4.2/§4.6:
it takes a matrix-like source and a mutable Storage target of the same shape
and writes `source.get(r,c)` (the safe, bounds-checked path) into
`target[r,c]` for every (r,c), outer loop over rows, inner over columns. -/
def Matrix.eval [Inhabited α] (src : Matrix α) (target : MatGen α) : MatGen α :=
  { target with
    data :=
      writeGrid src.nrows src.ncols (fun r c => src.getPanic r c) target.data }

/-- Modelled from the spec: the sequence of cells the `eval` loops visit, in
loop order (outer rows, inner columns), each visit appending its cell. -/
def Matrix.evalTrace (src : Matrix α) : List (Nat × Nat) :=
  (List.range src.nrows).foldl
    (fun tr r =>
      (List.range src.ncols).foldl (fun tr c => tr ++ [(r, c)]) tr)
    []

/-- The row-major enumeration of the cells of an `m x n` shape: row 0 left to
right, then row 1, and so on. The visit order the spec prescribes for
materialization (§4.6). -/
def rowMajorCells (m n : Nat) : List (Nat × Nat) :=
  (List.range m).flatMap (fun r => (List.range n).map (fun c => (r, c)))

/-- The 2x3 storage `[[1,2,3],[3,4,5]]` of the crate's doc example and of the
spec's end-to-end scenario 1. -/
def exA : MatGen Int :=
  MatGen.fromRows [[1, 2, 3], [3, 4, 5]]

/-- The 3x2 storage `[[1,2],[3,4],[5,6]]` of the crate's doc example and of the
spec's end-to-end scenario 1. -/
def exB : MatGen Int :=
  MatGen.fromRows [[1, 2], [3, 4], [5, 6]]

/-- The 2x2 storage `[[1,2],[3,4]]` of the `mat_sub` test (scenario 2). -/
def exC : MatGen Int :=
  MatGen.fromRows [[1, 2], [3, 4]]

/-- The 2x2 storage `[[4,3],[2,1]]` of the `mat_sub` test (scenario 2). -/
def exD : MatGen Int :=
  MatGen.fromRows [[4, 3], [2, 1]]

/-! ## Helper lemmas -/

/-- A left fold that keeps adding to a running sum seeded with `0` computes the
finite sum — the loop of `Product::unsafe_get` is the spec's Σ. -/
theorem foldl_add_eq_sum [AddCommMonoid α] (f : Nat → α) (n : Nat) :
    (List.range n).foldl (fun sum k => sum + f k) 0 =
      ∑ k ∈ Finset.range n, f k := by
  induction n with
  | zero => rfl
  | succ n ih =>
    rw [List.range_succ, List.foldl_append, ih, Finset.sum_range_succ]
    rfl

/-- An in-bounds internal `get` call returns the unchecked element. -/
theorem getPanic_inbounds [Inhabited α] (m : Matrix α) (r c : Nat)
    (h1 : r < m.nrows) (h2 : c < m.ncols) :
    m.getPanic r c = m.unsafe_get r c := by
  unfold Matrix.getPanic Matrix.get
  simp [h1, h2]

/-- Reading the flattening of a rectangular grid of rows (each of length `L`)
at flat offset `r * L + c` recovers element (r, c) of the grid. -/
theorem flatten_getD [Inhabited α] (rows : List (List α)) (L : Nat)
    (hrect : ∀ row ∈ rows, row.length = L) (r c : Nat)
    (hr : r < rows.length) (hc : c < L) :
    rows.flatten.getD (r * L + c) default = (rows.getD r []).getD c default := by
  induction rows generalizing r with
  | nil => simp at hr
  | cons row rest ih =>
    have hrow : row.length = L := hrect row (List.mem_cons_self _ _)
    cases r with
    | zero =>
      rw [List.flatten_cons, List.getD_cons_zero, Nat.zero_mul, Nat.zero_add,
        List.getD_eq_getElem?_getD, List.getElem?_append_left (by omega),
        ← List.getD_eq_getElem?_getD]
    | succ r =>
      rw [List.flatten_cons, List.getD_cons_succ,
        List.getD_eq_getElem?_getD,
        List.getElem?_append_right (by rw [hrow, Nat.succ_mul]; omega)]
      have hidx : (r + 1) * L + c - row.length = r * L + c := by
        rw [hrow, Nat.succ_mul]; omega
      rw [hidx, ← List.getD_eq_getElem?_getD]
      exact ih (fun row' h' => hrect row' (List.mem_cons_of_mem _ h')) r
        (by simpa using hr)

/-- A loop of buffer writes never changes the buffer's length. -/
theorem foldl_set_length (l : List Nat) (pos : Nat → Nat) (v : Nat → α)
    (buf : List α) :
    (l.foldl (fun b j => b.set (pos j) (v j)) buf).length = buf.length := by
  induction l generalizing buf with
  | nil => rfl
  | cons x xs ih => rw [List.foldl_cons, ih, List.length_set]

/-- A loop of buffer writes leaves every position it never writes unchanged. -/
theorem foldl_set_getElem_untouched (l : List Nat) (pos : Nat → Nat)
    (v : Nat → α) (buf : List α) (p : Nat) (h : ∀ j ∈ l, pos j ≠ p) :
    (l.foldl (fun b j => b.set (pos j) (v j)) buf)[p]? = buf[p]? := by
  induction l generalizing buf with
  | nil => rfl
  | cons x xs ih =>
    rw [List.foldl_cons, ih _ (fun j hj => h j (List.mem_cons_of_mem _ hj)),
      List.getElem?_set_ne (h x (List.mem_cons_self _ _))]

/-- The inner (column) write loop at row base `base`: after writing
`v 0, ..., v (n-1)` at offsets `base, ..., base + n - 1`, reading offset
`base + j` (for `j < n`, in range of the buffer) yields `v j`. -/
theorem foldl_set_range_getElem (n base : Nat) (v : Nat → α) (buf : List α)
    (j : Nat) (hj : j < n) (hlen : base + j < buf.length) :
    ((List.range n).foldl (fun b k => b.set (base + k) (v k)) buf)[base + j]?
      = some (v j) := by
  induction n with
  | zero => omega
  | succ n ih =>
    rw [List.range_succ, List.foldl_append, List.foldl_cons, List.foldl_nil]
    by_cases hjn : j = n
    · subst hjn
      rw [List.getElem?_set_self (by rw [foldl_set_length]; exact hlen)]
    · have hj' : j < n := by omega
      rw [List.getElem?_set_ne (by omega), ih hj']

/-- The write loops preserve the buffer's length. -/
theorem writeGrid_length (m n : Nat) (g : Nat → Nat → α) (buf : List α) :
    (writeGrid m n g buf).length = buf.length := by
  induction m with
  | zero => rfl
  | succ m ih =>
    unfold writeGrid at ih ⊢
    rw [List.range_succ, List.foldl_append, List.foldl_cons, List.foldl_nil,
      foldl_set_length, ih]

/-- Reading back a grid of writes: provided the buffer holds at least
`m * n` elements, cell (i, j) of the written grid reads `g i j`. -/
theorem writeGrid_getElem (m n : Nat) (g : Nat → Nat → α) (buf : List α)
    (i j : Nat) (hi : i < m) (hj : j < n) (hlen : m * n ≤ buf.length) :
    (writeGrid m n g buf)[i * n + j]? = some (g i j) := by
  induction m with
  | zero => omega
  | succ m ih =>
    unfold writeGrid at ih ⊢
    rw [List.range_succ, List.foldl_append, List.foldl_cons, List.foldl_nil]
    have hs : (m + 1) * n = m * n + n := Nat.succ_mul m n
    by_cases him : i = m
    · subst him
      have hL : ((List.range i).foldl
          (fun slice i =>
            (List.range n).foldl
              (fun slice j => slice.set (i * n + j) (g i j)) slice)
          buf).length = buf.length := by
        have h := writeGrid_length i n g buf
        unfold writeGrid at h
        exact h
      exact foldl_set_range_getElem n (i * n) (g i) _ j hj
        (by rw [hL]; omega)
    · have hi' : i < m := by omega
      have hsi : (i + 1) * n = i * n + n := Nat.succ_mul i n
      have hle : (i + 1) * n ≤ m * n :=
        Nat.mul_le_mul_right n (by omega)
      rw [foldl_set_getElem_untouched (List.range n) _ _ _ _
        (fun k hk => by have := List.mem_range.mp hk; omega)]
      exact ih hi' (by omega)

/-- Reading a Storage whose buffer is a fresh default buffer overwritten by a
grid of writes: in bounds, the safe `get` returns the written value. -/
theorem writeGrid_mat_get [Inhabited α] (R C : Nat) (g : Nat → Nat → α)
    (r c : Nat) (hr : r < R) (hc : c < C) :
    (MatGen.mk R C (writeGrid R C g (MatGen.mkDefault α R C).data)).view.get r c
      = some (g r c) := by
  have hbuf : (MatGen.mkDefault α R C).data.length = R * C :=
    List.length_replicate _ _
  have h := writeGrid_getElem R C g (MatGen.mkDefault α R C).data r c hr hc
    (by rw [hbuf])
  unfold MatGen.view Matrix.get
  simp [hr, hc, List.getD_eq_getElem?_getD, h]

/-- Appending one element per iteration accumulates the mapped list. -/
theorem foldl_append_singleton (l : List β) (g : β → γ) (init : List γ) :
    l.foldl (fun t x => t ++ [g x]) init = init ++ l.map g := by
  induction l generalizing init with
  | nil => simp
  | cons x xs ih => rw [List.foldl_cons, ih, List.map_cons]; simp

/-- Appending one block per iteration accumulates the flattened blocks. -/
theorem foldl_append_block (l : List β) (F : β → List γ) (init : List γ) :
    l.foldl (fun t x => t ++ F x) init = init ++ l.flatMap F := by
  induction l generalizing init with
  | nil => simp
  | cons x xs ih => rw [List.foldl_cons, ih, List.flatMap_cons]; simp

/-- The visit order of the `eval` loops is exactly the row-major enumeration. -/
theorem evalTrace_eq (src : Matrix α) :
    src.evalTrace = rowMajorCells src.nrows src.ncols := by
  unfold Matrix.evalTrace rowMajorCells
  simp only [foldl_append_singleton]
  rw [foldl_append_block]
  simp

/-- A cell is enumerated by `rowMajorCells m n` iff it is in bounds. -/
theorem mem_rowMajorCells (m n r c : Nat) :
    (r, c) ∈ rowMajorCells m n ↔ r < m ∧ c < n := by
  unfold rowMajorCells
  simp [List.mem_flatMap, List.mem_range, eq_comm]

/-- The row-major enumeration lists no cell twice. -/
theorem nodup_rowMajorCells (m n : Nat) : (rowMajorCells m n).Nodup := by
  unfold rowMajorCells
  rw [List.nodup_flatMap]
  constructor
  · intro x _
    exact (List.nodup_range n).map (fun c1 c2 h => by simpa using h)
  · refine (List.pairwise_lt_range m).imp ?_
    intro x y hxy p hp1 hp2
    simp only [List.mem_map, List.mem_range] at hp1 hp2
    obtain ⟨c1, _, hc1⟩ := hp1
    obtain ⟨c2, _, hc2⟩ := hp2
    rw [← hc2] at hc1
    have := (Prod.mk.injEq _ _ _ _).mp hc1
    omega

/-- Occurrence counts of cells do not depend on the equality test instance. -/
theorem count_pair_transfer (l : List (Nat × Nat)) (p : Nat × Nat) :
    l.count p = @List.count _ instBEqOfDecidableEq p l := by
  induction l with
  | nil => rfl
  | cons x xs ih =>
    rw [List.count_cons, @List.count_cons _ instBEqOfDecidableEq, ih]
    by_cases hxp : x = p
    · subst hxp; simp [instBEqOfDecidableEq, beq_iff_eq]
    · simp [instBEqOfDecidableEq, beq_iff_eq, hxp]

/-- Each in-bounds cell occurs exactly once in the row-major enumeration. -/
theorem count_rowMajorCells_eq_one (m n r c : Nat) (hr : r < m) (hc : c < n) :
    (rowMajorCells m n).count (r, c) = 1 := by
  rw [count_pair_transfer]
  exact List.count_eq_one_of_mem (nodup_rowMajorCells m n)
    ((mem_rowMajorCells m n r c).mpr ⟨hr, hc⟩)

/-! ## The claims -/

/-- C2: the safe `get(r, c)` fails (panics) iff `r >= nrows()` or
`c >= ncols()`; in bounds it returns exactly `unsafe_get(r, c)`, with no
clamping or wrapping of the indices. -/
theorem get_inbounds_iff (m : Matrix α) (r c : Nat) :
    (m.get r c = none ↔ m.nrows ≤ r ∨ m.ncols ≤ c) ∧
    (r < m.nrows → c < m.ncols → m.get r c = some (m.unsafe_get r c)) := by
  constructor
  · unfold Matrix.get
    split <;> simp_all <;> omega
  · intro h1 h2
    unfold Matrix.get
    simp [h1, h2]

/-- C2 witness: on the concrete 2x3 storage `exA`, `get 0 1` succeeds and
returns the unchecked element. -/
theorem get_inbounds_iff_witness :
    exA.view.get 0 1 = some (exA.view.unsafe_get 0 1) :=
  (get_inbounds_iff exA.view 0 1).2 (by decide) (by decide)

/-- C4: the `Transpose` node reports swapped extents and reads with swapped
indices, holding no data of its own (it wraps only the operand). -/
theorem transpose_swaps (m : Matrix α) (r c : Nat) :
    (Transpose m).nrows = m.ncols ∧ (Transpose m).ncols = m.nrows ∧
    (Transpose m).unsafe_get r c = m.unsafe_get c r :=
  ⟨rfl, rfl, rfl⟩

/-- C5: transpose is involutive — transposing twice and reading any element
yields the original element (here for every (r, c), in bounds or not). -/
theorem transpose_involutive (m : Matrix α) (r c : Nat) :
    (Transpose (Transpose m)).get r c = m.get r c :=
  rfl

/-- C3: the `-` operator on same-shape matrix-like values yields the
`Difference` node, elementwise `left - right` at the same shape; concretely
(scenario 2 / test `mat_sub`), with A = [[1,2],[3,4]] and B = [[4,3],[2,1]],
A - B reads back [[-3,-1],[1,3]]. -/
theorem sub_difference_scenario :
    (∀ (α : Type) [Sub α] (l r : Matrix α) (i j : Nat),
        (Difference l r).nrows = l.nrows ∧ (Difference l r).ncols = l.ncols ∧
        (Difference l r).unsafe_get i j = l.unsafe_get i j - r.unsafe_get i j) ∧
    (Difference exC.view exD.view).get 0 0 = some (-3) ∧
    (Difference exC.view exD.view).get 0 1 = some (-1) ∧
    (Difference exC.view exD.view).get 1 0 = some 1 ∧
    (Difference exC.view exD.view).get 1 1 = some 3 := by
  refine ⟨?_, by decide, by decide, by decide, by decide⟩
  intro α inst l r i j
  exact ⟨rfl, rfl, rfl⟩

/-- C1: a `Product` node of an m×k left and k×n right operand reads, at any
in-bounds (r, c), the Σ over the shared dimension of
`left.unsafe_get(r, k) * right.unsafe_get(k, c)` seeded with zero; through the
safe path, `get(i, j)` is the dot product of row i of the left and column j of
the right operand. -/
theorem product_get_is_dot [AddCommMonoid α] [Mul α] (l r : Matrix α)
    (hk : l.ncols = r.nrows) (i j : Nat) (hi : i < l.nrows) (hj : j < r.ncols) :
    (Product l r).unsafe_get i j =
      ∑ k ∈ Finset.range l.ncols, l.unsafe_get i k * r.unsafe_get k j ∧
    (Product l r).get i j =
      some (∑ k ∈ Finset.range l.ncols, l.unsafe_get i k * r.unsafe_get k j) := by
  have h1 : (Product l r).unsafe_get i j =
      ∑ k ∈ Finset.range l.ncols, l.unsafe_get i k * r.unsafe_get k j :=
    foldl_add_eq_sum (fun k => l.unsafe_get i k * r.unsafe_get k j) l.ncols
  refine ⟨h1, ?_⟩
  unfold Matrix.get
  rw [if_pos ⟨hi, hj⟩, h1]

/-- C1 witness: on the doc example / scenario 1 matrices (2x3 `exA`, 3x2
`exB`), the product node's element (0, 0) is the dot product of row 0 of `exA`
and column 0 of `exB`. -/
theorem product_get_is_dot_witness :
    (Product exA.view exB.view).unsafe_get 0 0 =
      ∑ k ∈ Finset.range exA.view.ncols,
        exA.view.unsafe_get 0 k * exB.view.unsafe_get k 0 ∧
    (Product exA.view exB.view).get 0 0 =
      some (∑ k ∈ Finset.range exA.view.ncols,
        exA.view.unsafe_get 0 k * exB.view.unsafe_get k 0) :=
  product_get_is_dot exA.view exB.view (by decide) 0 0 (by decide) (by decide)

/-- C8: a Storage matrix built from a rectangular grid of rows reads, at any
in-bounds (r, c), the backing flat buffer at offset `r * ncols + c` — and that
read recovers exactly element (r, c) of the grid: the layout is row-major. -/
theorem storage_row_major [Inhabited α] (rows : List (List α))
    (hrect : ∀ row ∈ rows, row.length = (rows.headD []).length)
    (r c : Nat) (hr : r < (MatGen.fromRows rows).nrows)
    (hc : c < (MatGen.fromRows rows).ncols) :
    (MatGen.fromRows rows).view.unsafe_get r c =
      (MatGen.fromRows rows).data.getD
        (r * (MatGen.fromRows rows).ncols + c) default ∧
    (MatGen.fromRows rows).view.unsafe_get r c =
      (rows.getD r []).getD c default :=
  ⟨rfl, flatten_getD rows (rows.headD []).length hrect r c hr hc⟩

/-- C8 witness: on the concrete 2x3 grid `[[1,2,3],[3,4,5]]`, element (1, 2)
is read from flat offset `1 * 3 + 2` and equals the grid's entry. -/
theorem storage_row_major_witness :
    (MatGen.fromRows ([[1, 2, 3], [3, 4, 5]] : List (List Int))).view.unsafe_get 1 2 =
      (MatGen.fromRows ([[1, 2, 3], [3, 4, 5]] : List (List Int))).data.getD
        (1 * (MatGen.fromRows ([[1, 2, 3], [3, 4, 5]] : List (List Int))).ncols + 2) default ∧
    (MatGen.fromRows ([[1, 2, 3], [3, 4, 5]] : List (List Int))).view.unsafe_get 1 2 =
      (([[1, 2, 3], [3, 4, 5]] : List (List Int)).getD 1 []).getD 2 default :=
  storage_row_major ([[1, 2, 3], [3, 4, 5]] : List (List Int))
    (by decide) 1 2 (by decide) (by decide)

/-- C9: on a freshly default-constructed Storage matrix, every in-bounds
`get(r, c)` returns the element type's default value (for the numeric element
types of the crate, their zero). -/
theorem default_get_zero (α : Type) [Inhabited α] (nrows ncols r c : Nat)
    (hr : r < nrows) (hc : c < ncols) :
    (MatGen.mkDefault α nrows ncols).view.get r c = some (default : α) := by
  have hidx : (List.replicate (nrows * ncols) (default : α)).getD
      (r * ncols + c) default = default := by
    rw [List.getD_eq_getElem?_getD, List.getElem?_replicate]
    split <;> rfl
  unfold MatGen.mkDefault MatGen.view Matrix.get
  simp [hr, hc, hidx]

/-- C9 witness: a fresh 3x2 default `Int` storage reads `0` at (2, 1). -/
theorem default_get_zero_witness :
    (MatGen.mkDefault Int 3 2).view.get 2 1 = some (default : Int) ∧
    (default : Int) = 0 :=
  ⟨default_get_zero Int 3 2 2 1 (by decide) (by decide), rfl⟩

/-- C6: the `+` operator is elementwise — the lazy `Sum` node reads
`left + right` at each cell, and the eager `ops::Add` on storage materializes
exactly those elementwise sums; both are commutative when the element
addition is. -/
theorem sum_elementwise_comm {α : Type} [AddCommMonoid α] [Inhabited α]
    (a b : MatGen α) (hbr : b.nrows = a.nrows) (hbc : b.ncols = a.ncols)
    (r c : Nat) (h1 : r < a.nrows) (h2 : c < a.ncols) :
    (Sum a.view b.view).unsafe_get r c
      = a.view.unsafe_get r c + b.view.unsafe_get r c ∧
    (MatGenImm.add a b.view).view.get r c
      = some (a.view.unsafe_get r c + b.view.unsafe_get r c) ∧
    (Sum a.view b.view).unsafe_get r c
      = (Sum b.view a.view).unsafe_get r c ∧
    (MatGenImm.add a b.view).view.get r c
      = (MatGenImm.add b a.view).view.get r c := by
  have hr' : r < b.nrows := by omega
  have hc' : c < b.ncols := by omega
  have hga : a.view.getPanic r c = a.view.unsafe_get r c :=
    getPanic_inbounds a.view r c h1 h2
  have hgb : b.view.getPanic r c = b.view.unsafe_get r c :=
    getPanic_inbounds b.view r c hr' hc'
  have hab := writeGrid_mat_get (α := α) a.nrows a.ncols
    (fun i j => a.view.getPanic i j + b.view.getPanic i j) r c h1 h2
  have hba := writeGrid_mat_get (α := α) b.nrows b.ncols
    (fun i j => b.view.getPanic i j + a.view.getPanic i j) r c hr' hc'
  refine ⟨rfl, ?_, add_comm _ _, ?_⟩
  · unfold MatGenImm.add
    rw [hab]
    simp only [hga, hgb]
  · unfold MatGenImm.add
    rw [hab, hba]
    simp only [hga, hgb]
    exact congrArg some (add_comm _ _)

/-- C6 witness: on the concrete 2x2 storages `exC` and `exD`, addition is
elementwise at (1, 0) and agrees with the swapped-operand addition. -/
theorem sum_elementwise_comm_witness :
    (Sum exC.view exD.view).unsafe_get 1 0
      = exC.view.unsafe_get 1 0 + exD.view.unsafe_get 1 0 ∧
    (MatGenImm.add exC exD.view).view.get 1 0
      = some (exC.view.unsafe_get 1 0 + exD.view.unsafe_get 1 0) ∧
    (Sum exC.view exD.view).unsafe_get 1 0
      = (Sum exD.view exC.view).unsafe_get 1 0 ∧
    (MatGenImm.add exC exD.view).view.get 1 0
      = (MatGenImm.add exD exC.view).view.get 1 0 :=
  sum_elementwise_comm exC exD (by decide) (by decide) 1 0 (by decide) (by decide)

/-- C10: the eager triple-loop multiplication of two storage matrices agrees,
element for element, with the lazy `Product` node over the same operands: both
read the dot product of row i of the left and column j of the right operand. -/
theorem eager_mul_refines_product {α : Type} [AddCommMonoid α] [Mul α]
    [Inhabited α] (a b : MatGen α) (hk : a.ncols = b.nrows)
    (i j : Nat) (hi : i < a.nrows) (hj : j < b.ncols) :
    (MatGenImm.mul a b.view).view.get i j = (Product a.view b.view).get i j ∧
    (MatGenImm.mul a b.view).view.get i j
      = some (∑ k ∈ Finset.range a.ncols,
          a.view.unsafe_get i k * b.view.unsafe_get k j) := by
  have hmul := writeGrid_mat_get (α := α) a.nrows b.view.ncols
    (fun i j => (List.range a.ncols).foldl
      (fun sum k => sum + a.view.getPanic i k * b.view.getPanic k j) 0)
    i j hi hj
  have hfold : (List.range a.ncols).foldl
      (fun sum k => sum + a.view.getPanic i k * b.view.getPanic k j) 0
      = ∑ k ∈ Finset.range a.ncols,
          a.view.unsafe_get i k * b.view.unsafe_get k j := by
    rw [foldl_add_eq_sum]
    refine Finset.sum_congr rfl ?_
    intro k hk'
    have hkn : k < a.ncols := Finset.mem_range.mp hk'
    rw [getPanic_inbounds a.view i k hi hkn,
      getPanic_inbounds b.view k j (show k < b.nrows by omega) hj]
  have hPu : (Product a.view b.view).unsafe_get i j
      = ∑ k ∈ Finset.range a.ncols,
          a.view.unsafe_get i k * b.view.unsafe_get k j :=
    foldl_add_eq_sum
      (fun k => a.view.unsafe_get i k * b.view.unsafe_get k j) a.ncols
  have hprod : (Product a.view b.view).get i j
      = some (∑ k ∈ Finset.range a.ncols,
          a.view.unsafe_get i k * b.view.unsafe_get k j) := by
    unfold Matrix.get
    rw [if_pos ⟨hi, hj⟩]
    exact congrArg some hPu
  have heager : (MatGenImm.mul a b.view).view.get i j
      = some (∑ k ∈ Finset.range a.ncols,
          a.view.unsafe_get i k * b.view.unsafe_get k j) :=
    hmul.trans (congrArg some hfold)
  exact ⟨heager.trans hprod.symm, heager⟩

/-- C10 witness: on the doc example matrices (2x3 `exA`, 3x2 `exB`), the
eagerly materialized product and the lazy `Product` node agree at (1, 1). -/
theorem eager_mul_refines_product_witness :
    (MatGenImm.mul exA exB.view).view.get 1 1
      = (Product exA.view exB.view).get 1 1 ∧
    (MatGenImm.mul exA exB.view).view.get 1 1
      = some (∑ k ∈ Finset.range exA.ncols,
          exA.view.unsafe_get 1 k * exB.view.unsafe_get k 1) :=
  eager_mul_refines_product exA exB (by decide) 1 1 (by decide) (by decide)

/-- C7: evaluating a matrix-like source into a same-shape Storage target
writes `source.get(r, c)` into target cell (r, c) for every in-bounds (r, c),
and the loops visit the cells in row-major order (outer rows, inner columns),
each cell exactly once. -/
theorem eval_writes_rowmajor [Inhabited α] (src : Matrix α) (target : MatGen α)
    (hwf : target.wf) (htr : target.nrows = src.nrows)
    (htc : target.ncols = src.ncols)
    (r c : Nat) (hr : r < src.nrows) (hc : c < src.ncols) :
    (src.eval target).view.get r c = src.get r c ∧
    src.evalTrace = rowMajorCells src.nrows src.ncols ∧
    src.evalTrace.count (r, c) = 1 := by
  refine ⟨?_, evalTrace_eq src, ?_⟩
  · have hlen : src.nrows * src.ncols ≤ target.data.length :=
      le_of_eq (by rw [hwf, htr, htc])
    have hread := writeGrid_getElem src.nrows src.ncols
      (fun r c => src.getPanic r c) target.data r c hr hc hlen
    have hview : (src.eval target).view.get r c
        = some ((writeGrid src.nrows src.ncols (fun r c => src.getPanic r c)
            target.data).getD (r * target.ncols + c) default) := by
      unfold Matrix.eval MatGen.view Matrix.get
      rw [if_pos ⟨show r < target.nrows by omega,
        show c < target.ncols by omega⟩]
    rw [hview, htc, List.getD_eq_getElem?_getD, hread]
    simp [getPanic_inbounds src r c hr hc, Matrix.get, hr, hc]
  · rw [evalTrace_eq src]
    exact count_rowMajorCells_eq_one _ _ r c hr hc

/-- C7 witness: evaluating the 2x3 `exA` into a fresh 2x3 target reproduces
`exA`'s element at (1, 2), and the visit trace is the row-major enumeration
with cell (1, 2) visited exactly once. -/
theorem eval_writes_rowmajor_witness :
    (exA.view.eval (MatGen.mkDefault Int 2 3)).view.get 1 2
      = exA.view.get 1 2 ∧
    exA.view.evalTrace = rowMajorCells exA.view.nrows exA.view.ncols ∧
    exA.view.evalTrace.count (1, 2) = 1 :=
  eval_writes_rowmajor exA.view (MatGen.mkDefault Int 2 3)
    (by decide) (by decide) (by decide) 1 2 (by decide) (by decide)

end mat
